import Mathlib

/-!
Verification development for a small retrieval-augmented-generation server
(src/main.js).  The file embeds, as Lean definitions, the parts of the source
that the checked claims talk about:

* the sentence segmenter (the global regex match of [^.!?]+[.!?]+ with the
  fallback to the whole text, followed by trim and the non-empty filter);
* cosine similarity over IEEE-style division (0/0 is NaN, x/0 is a signed
  infinity) and the similarity-driven chunk loop;
* index record id construction for the /index and /upload handlers and the
  replace-on-id-match upsert semantics of the external store;
* the control flow of the /index, /upload, /query and /chat handlers, with
  the externally visible events (file reads, chunking, temp-file unlinks,
  collection fetches, embedding calls, store writes) made explicit, and the
  external services given as oracles.

Numbers are modelled as real numbers; the only non-real JavaScript values that
the compared code can produce (NaN and signed infinities from the final
division of cosineSimilarity) are modelled explicitly by the JNum type.
-/

namespace RagSpec

/-! ## Sentence segmentation (src/main.js lines 53-54 and 410-411) -/

/-- Sentence terminating characters, the class [.!?] of the source regex. -/
def isTerm (c : Char) : Bool := c == '.' || c == '!' || c == '?'

/-- Whitespace predicate used by trim. -/
def isWS (c : Char) : Bool := c.isWhitespace

/-- Global matcher for the regex [^.!?]+[.!?]+ written as a character scanner.
A match is a non-empty run of non-terminator characters followed by a
non-empty run of terminator characters, both maximal; matches are found left
to right and are non-overlapping.  The scanner state holds the reversed
pending non-terminator span ns and the reversed pending terminator span ts.
A terminator seen with both spans empty cannot start a match and is skipped,
and a pending non-terminator span left at the end of the input without a
following terminator is not a match and is dropped, exactly as the regex
engine behaves on text.match. -/
def segAux : List Char → List Char → List Char → List (List Char)
  | _, [], [] => []
  | ns, t :: ts, [] => [ns.reverse ++ (t :: ts).reverse]
  | ns, [], c :: cs =>
    if isTerm c then
      match ns with
      | [] => segAux [] [] cs
      | _ :: _ => segAux ns [c] cs
    else segAux (c :: ns) [] cs
  | ns, t :: ts, c :: cs =>
    if isTerm c then segAux ns (c :: t :: ts) cs
    else (ns.reverse ++ (t :: ts).reverse) :: segAux [c] [] cs

/-- All matches of the sentence regex in the given text. -/
def segMatches (cs : List Char) : List (List Char) := segAux [] [] cs

/-- Sentence list of the source: text.match(regex) with the null fallback
to the one-element list holding the whole input. -/
def sentencesOf (cs : List Char) : List (List Char) :=
  if (segMatches cs).isEmpty then [cs] else segMatches cs

/-- Both-ends trim, the model of String.prototype.trim. -/
def trimChars (cs : List Char) : List Char :=
  ((cs.dropWhile isWS).reverse.dropWhile isWS).reverse

/-- Cleaned sentences of the source: map trim, then keep non-empty strings
(the filter on s.length). -/
def cleanSentencesOf (cs : List Char) : List (List Char) :=
  ((sentencesOf cs).map trimChars).filter (fun s => !s.isEmpty)

/-- Non-whitespace characters of a text, in order. -/
def nonWS (cs : List Char) : List Char := cs.filter (fun c => !isWS c)

/-! ## Cosine similarity (src/main.js lines 44-49) -/

/-- Value of a JavaScript floating point expression as produced by the final
division of cosineSimilarity: an ordinary real, a signed infinity, or NaN. -/
inductive JNum
  | num (x : ℝ)
  | posInf
  | negInf
  | nan

/-- Real-valued part of the dot product, summing pairwise products over the
common prefix. -/
def dotR (a b : List ℝ) : ℝ := (a.zip b).foldl (fun s p => s + p.1 * p.2) 0

/-- Dot product of the source, vecA.reduce((sum, a, i) => sum + a * vecB[i], 0).
When vecA is longer than vecB some index of vecB is undefined, the product
with undefined is NaN and the running sum is poisoned, so the result is NaN;
otherwise the sum is an ordinary real. -/
def jdot (a b : List ℝ) : Option ℝ :=
  if a.length ≤ b.length then some (dotR a b) else none

/-- Magnitude of a vector, Math.sqrt of the sum of squares. -/
noncomputable def magnitude (v : List ℝ) : ℝ :=
  Real.sqrt (v.foldl (fun s a => s + a * a) 0)

/-- Cosine similarity of the source: dotProduct / (magnitudeA * magnitudeB)
with JavaScript division semantics for a zero denominator: 0/0 is NaN and a
nonzero real over zero is a signed infinity. -/
noncomputable def cosineSimilarity (a b : List ℝ) : JNum :=
  match jdot a b with
  | none => JNum.nan
  | some d =>
    if magnitude a * magnitude b = 0 then
      if d = 0 then JNum.nan else if 0 < d then JNum.posInf else JNum.negInf
    else JNum.num (d / (magnitude a * magnitude b))

/-- JavaScript comparison sim >= threshold for a finite threshold: false
whenever sim is NaN, true for positive infinity, false for negative
infinity. -/
noncomputable def jsGe (s : JNum) (t : ℝ) : Bool :=
  match s with
  | JNum.num x => decide (t ≤ x)
  | JNum.posInf => true
  | JNum.negInf => false
  | JNum.nan => false

/-! ## Semantic chunking (src/main.js lines 52-77 and 409-433) -/

/-- One iteration of the chunk loop.  The state is (chunks, currentChunk,
currentVec).  On sim >= threshold the sentence text is appended to the
current chunk with a space and currentVec is left unchanged; otherwise the
current chunk is emitted and both the chunk and the vector restart at the
incoming sentence. -/
noncomputable def chunkStep (τ : ℝ) (st : List (List Char) × List Char × List ℝ)
    (p : List Char × List ℝ) : List (List Char) × List Char × List ℝ :=
  if jsGe (cosineSimilarity st.2.2 p.2) τ then (st.1, st.2.1 ++ ' ' :: p.1, st.2.2)
  else (st.1 ++ [st.2.1], p.1, p.2)

/-- Pairs each sentence with its embedding vector by position, starting at
the given index; a missing vector is the empty list, mirroring an
out-of-range array access. -/
def attachVecs (vecs : List (List ℝ)) : ℕ → List (List Char) → List (List Char × List ℝ)
  | _, [] => []
  | i, s :: rest => (s, vecs.getD i []) :: attachVecs vecs (i + 1) rest

/-- Final step of the chunk loop: push the open chunk when it is non-empty,
the truthiness test if (currentChunk) of the source. -/
def chunkFinish (st : List (List Char) × List Char × List ℝ) : List (List Char) :=
  if st.2.1.isEmpty then st.1 else st.1 ++ [st.2.1]

/-- Chunk construction of semanticChunking on an already cleaned sentence
list: empty input returns no chunks; otherwise the loop starts at sentence 0
with its vector, folds chunkStep over the remaining sentences paired with
their vectors, and finally pushes the open chunk when it is non-empty. -/
noncomputable def chunkSentences (τ : ℝ) (sents : List (List Char)) (vecs : List (List ℝ)) :
    List (List Char) :=
  match sents with
  | [] => []
  | s0 :: rest =>
    chunkFinish ((attachVecs vecs 1 rest).foldl (chunkStep τ) ([], s0, vecs.getD 0 []))

/-- Whole semanticChunking pipeline: segment and clean the text, then chunk,
with the sentence embeddings supplied by the embedding oracle. -/
noncomputable def semanticChunking (τ : ℝ) (text : List Char) (vecs : List (List ℝ)) :
    List (List Char) :=
  chunkSentences τ (cleanSentencesOf text) vecs

/-- Space-joined concatenation of a block of sentences, built exactly as the
loop builds currentChunk: the first sentence, then a space and the next
sentence for each later one. -/
def joinSpace : List (List Char) → List Char
  | [] => []
  | s :: rest => rest.foldl (fun acc t => acc ++ ' ' :: t) s

/-- Chunker written from the words of the spec, for comparison with the code
version: keep an anchor vector equal to the embedding of the sentence that
opened the current run; on similarity at least the threshold append the
sentence text and keep the anchor unchanged; on lower similarity emit the
current chunk, start a new chunk at the sentence, and reset the anchor to
the embedding of that sentence; at the end emit the open chunk. -/
noncomputable def specChunkRun (τ : ℝ) :
    List ℝ → List Char → List (List Char × List ℝ) → List (List Char)
  | _, cur, [] => [cur]
  | anchor, cur, (s, v) :: rest =>
    if jsGe (cosineSimilarity anchor v) τ then specChunkRun τ anchor (cur ++ ' ' :: s) rest
    else cur :: specChunkRun τ v s rest

/-- Spec-version chunking over a sentence list: anchor and current chunk
start at sentence 0. -/
noncomputable def specChunking (τ : ℝ) (sents : List (List Char)) (vecs : List (List ℝ)) :
    List (List Char) :=
  match sents with
  | [] => []
  | s0 :: rest => specChunkRun τ (vecs.getD 0 []) s0 (attachVecs vecs 1 rest)

/-! ## Index record ids and the store (src/main.js lines 123-128 and 469-474) -/

/-- Record ids built by the /index handler: one id per chunk, the template
literal of context, a dash and the position of the chunk in the batch. -/
def indexIds (context : String) (n : ℕ) : List String :=
  (List.range n).map (fun i => context ++ "-" ++ toString i)

/-- Record ids built by the /upload handler: context, a dash, the value of
Date.now() at upsert time, a dash and the chunk position. -/
def uploadIds (context : String) (now : ℕ) (n : ℕ) : List String :=
  (List.range n).map (fun i => context ++ "-" ++ toString now ++ "-" ++ toString i)

/-- Upsert of one record into the external store, per the store contract: a
record whose id is already present replaces the stored record, otherwise the
record is appended.  Records are kept as id and document pairs. -/
def upsertOne (store : List (String × String)) (r : String × String) :
    List (String × String) :=
  if store.any (fun p => p.1 == r.1) then
    store.map (fun p => if p.1 == r.1 then r else p)
  else store ++ [r]

/-- Batched upsert: each record of the batch is upserted in order. -/
def upsertAll (store : List (String × String)) (recs : List (String × String)) :
    List (String × String) :=
  recs.foldl upsertOne store

/-! ## Ingestion handlers (src/main.js lines 92-138 and 441-484) -/

/-- One staged multipart upload: the temp path assigned by the upload
middleware and the original file name. -/
structure IngestFile where
  path : String
  originalname : String

/-- Oracles for the external effects an ingestion call performs: reading a
staged file, chunking its text (which embeds the sentences and can fail),
the batched embedding call over all chunk texts, the collection fetch, and
the store write.  Each can fail with a message, mirroring a thrown error. -/
structure IngestEnv where
  readFile : String → Except String String
  chunksOf : String → Except String (List String)
  embedOk : List String → Except String Unit
  getCollectionOk : Except String Unit
  upsertOk : Except String Unit

/-- Externally visible events of a handler run, in order. -/
inductive Ev
  | readF (p : String)
  | chunkF (p : String)
  | unlink (p : String)
  | getColl (name : String)
  | embedBatch
  | upsertWrite
deriving DecidableEq

/-- Collection name requested by the /index handler (line 102). -/
def collectionNameIndex : String := "Damian_Ingested"

/-- Collection name requested by the /query handler (line 149). -/
def collectionNameQuery : String := "Damian_Ingested"

/-- Collection name requested by the /upload handler (line 449). -/
def collectionNameUpload : String := "Damian_Ingested"

/-- Collection name requested by the /chat handler (line 494). -/
def collectionNameChat : String := "Damian_Ingested"

/-- Per-file loop of both ingestion handlers: read the staged file, chunk its
text, collect the chunk texts, and unlink the temp file, in that order for
each file.  A read or chunk failure aborts the loop at once; the unlink of
the failing file and of every later file never runs, and the events show
exactly which effects happened. -/
def processFiles (env : IngestEnv) : List IngestFile → Except String (List String) × List Ev
  | [] => (Except.ok [], [])
  | f :: rest =>
    match env.readFile f.path with
    | Except.error e => (Except.error e, [Ev.readF f.path])
    | Except.ok text =>
      match env.chunksOf text with
      | Except.error e => (Except.error e, [Ev.readF f.path, Ev.chunkF f.path])
      | Except.ok cs =>
        let r := processFiles env rest
        (r.1.map (fun more => cs ++ more),
          Ev.readF f.path :: Ev.chunkF f.path :: Ev.unlink f.path :: r.2)

/-- Control flow of the /index handler.  Missing or empty file set returns
the 400 validation response before any external call.  Then the collection
is fetched, the per-file loop runs, all chunk texts are embedded in one
batch, and the records are upserted with indexIds; any failure is caught and
answered with a 500 response, with no further cleanup.  The result is the
status, the ordered event list, and the store after the call. -/
def runIndex (env : IngestEnv) (store : List (String × String)) (context : String)
    (files? : Option (List IngestFile)) : ℕ × List Ev × List (String × String) :=
  match files? with
  | none => (400, [], store)
  | some files =>
    if files.isEmpty then (400, [], store)
    else
      match env.getCollectionOk with
      | Except.error _ => (500, [Ev.getColl collectionNameIndex], store)
      | Except.ok _ =>
        match processFiles env files with
        | (Except.error _, evs) => (500, Ev.getColl collectionNameIndex :: evs, store)
        | (Except.ok texts, evs) =>
          match env.embedOk texts with
          | Except.error _ =>
            (500, Ev.getColl collectionNameIndex :: evs ++ [Ev.embedBatch], store)
          | Except.ok _ =>
            match env.upsertOk with
            | Except.error _ =>
              (500, Ev.getColl collectionNameIndex :: evs ++ [Ev.embedBatch, Ev.upsertWrite],
                store)
            | Except.ok _ =>
              (200, Ev.getColl collectionNameIndex :: evs ++ [Ev.embedBatch, Ev.upsertWrite],
                upsertAll store ((indexIds context texts.length).zip texts))

/-- Control flow of the /upload handler, identical to runIndex except for the
collection name def used and the record ids, which also embed the Date.now()
value observed at the call. -/
def runUpload (env : IngestEnv) (store : List (String × String)) (context : String)
    (now : ℕ) (files? : Option (List IngestFile)) : ℕ × List Ev × List (String × String) :=
  match files? with
  | none => (400, [], store)
  | some files =>
    if files.isEmpty then (400, [], store)
    else
      match env.getCollectionOk with
      | Except.error _ => (500, [Ev.getColl collectionNameUpload], store)
      | Except.ok _ =>
        match processFiles env files with
        | (Except.error _, evs) => (500, Ev.getColl collectionNameUpload :: evs, store)
        | (Except.ok texts, evs) =>
          match env.embedOk texts with
          | Except.error _ =>
            (500, Ev.getColl collectionNameUpload :: evs ++ [Ev.embedBatch], store)
          | Except.ok _ =>
            match env.upsertOk with
            | Except.error _ =>
              (500, Ev.getColl collectionNameUpload :: evs ++ [Ev.embedBatch, Ev.upsertWrite],
                store)
            | Except.ok _ =>
              (200, Ev.getColl collectionNameUpload :: evs ++ [Ev.embedBatch, Ev.upsertWrite],
                upsertAll store ((uploadIds context now texts.length).zip texts))

/-! ## Query handlers (src/main.js lines 141-179 and 487-527) -/

/-- Where filter passed to the store query: the conditional expression
c ? (context equals c) : undefined, so a missing or empty context string
(falsy in JavaScript) yields no filter at all. -/
def whereOf (c : Option String) : Option String :=
  match c with
  | none => none
  | some s => if s.isEmpty then none else some s

/-- Equality semantics of the where filter on the context metadata field, per
the store contract: no filter accepts a record of any context, a filter
accepts exactly the records whose context equals the filtered value. -/
def matchesWhere (w : Option String) (ctx : String) : Bool :=
  match w with
  | none => true
  | some v => ctx == v

/-- One retrieved record: document text plus the source and part metadata. -/
structure RetrievedItem where
  text : String
  source : String
  part : ℕ
deriving DecidableEq

/-- Oracles for the external effects of a query call: the query embedding,
the collection fetch, the vector search (a function of the result count and
the where filter), and the generation service as a function of the prompt. -/
structure QueryEnv where
  embedQ : Except String Unit
  getCollectionOk : Except String Unit
  search : ℕ → Option String → Except String (List RetrievedItem)
  generate : String → Except String String

/-- Context block of the /query prompt: one Source line with name and part
per retrieved item, blocks joined by the visible separator. -/
def contextTextQuery (items : List RetrievedItem) : String :=
  String.intercalate "\n\n---\n\n"
    (items.map (fun r => "Source: " ++ r.source ++ "#" ++ toString r.part ++ "\n" ++ r.text))

/-- Context block of the /chat prompt: the Source line carries the name
only. -/
def contextTextChat (items : List RetrievedItem) : String :=
  String.intercalate "\n\n---\n\n"
    (items.map (fun r => "Source: " ++ r.source ++ "\n" ++ r.text))

/-- Prompt template shared by both query handlers. -/
def mkPrompt (ctxText q : String) : String :=
  "Use the following context to answer the question.\n\n" ++ ctxText ++
    "\n\nQuestion: " ++ q ++ "\nAnswer:"

/-- Control flow of the /query handler.  The result is the status, the answer
or error message, the retrieved list of the response, and whether the
generation service was invoked.  Note the handler maps whatever result list
the search returns, builds the prompt, and always calls generation; there is
no empty-result branch. -/
def runQuery (env : QueryEnv) (q : String) (k : ℕ) (c : Option String) :
    ℕ × String × List RetrievedItem × Bool :=
  if q.isEmpty then (400, "Missing query", [], false)
  else
    match env.embedQ with
    | Except.error e => (500, e, [], false)
    | Except.ok _ =>
      match env.getCollectionOk with
      | Except.error e => (500, e, [], false)
      | Except.ok _ =>
        match env.search k (whereOf c) with
        | Except.error e => (500, e, [], false)
        | Except.ok items =>
          match env.generate (mkPrompt (contextTextQuery items) q) with
          | Except.error e => (500, e, [], true)
          | Except.ok ans => (200, ans, items, true)

/-- Control flow of the /chat handler: identical to runQuery until the search
result, then an empty result list short-circuits to the fixed answer with an
empty retrieved list and generation is never reached. -/
def runChat (env : QueryEnv) (q : String) (k : ℕ) (c : Option String) :
    ℕ × String × List RetrievedItem × Bool :=
  if q.isEmpty then (400, "Missing query", [], false)
  else
    match env.embedQ with
    | Except.error e => (500, e, [], false)
    | Except.ok _ =>
      match env.getCollectionOk with
      | Except.error e => (500, e, [], false)
      | Except.ok _ =>
        match env.search k (whereOf c) with
        | Except.error e => (500, e, [], false)
        | Except.ok items =>
          if items.isEmpty then (200, "No matching documents found.", [], false)
          else
            match env.generate (mkPrompt (contextTextChat items) q) with
            | Except.error e => (500, e, [], true)
            | Except.ok ans => (200, ans, items, true)

/-! ## Console redirection in the embedding client (src/main.js lines 80-89) -/

/-- State of the global console logging function: the original function or
the silencing no-op installed by getEmbeddings. -/
inductive LogTarget
  | original
  | silenced
deriving DecidableEq

/-- State-passing model of getEmbeddings: the handle to the current
console.log is saved, console.log is replaced by a no-op, the embedding call
runs, and only on its success does the saved handle get written back; a
rejection propagates immediately, before the restoring assignment. -/
def getEmbeddingsPatched {α : Type} (embedResult : Except String α) (log : LogTarget) :
    Except String α × LogTarget :=
  let originalLog := log
  match embedResult with
  | Except.error e => (Except.error e, LogTarget.silenced)
  | Except.ok v => (Except.ok v, originalLog)

/-! ## Concrete oracle instances used by the counterexample theorems -/

/-- Ingestion oracle whose chunking call always fails, as when the embedding
service inside semanticChunking rejects. -/
def envChunkFail : IngestEnv where
  readFile := fun _ => Except.ok "line one. line two."
  chunksOf := fun _ => Except.error "embedding failed"
  embedOk := fun _ => Except.ok ()
  getCollectionOk := Except.ok ()
  upsertOk := Except.ok ()

/-- Two staged multipart files. -/
def stagedFiles : List IngestFile :=
  [{ path := "tmp-a", originalname := "a.txt" },
   { path := "tmp-b", originalname := "b.txt" }]

/-- Query oracle whose vector search returns zero results and whose
generation service answers every prompt. -/
def envEmptySearch : QueryEnv where
  embedQ := Except.ok ()
  getCollectionOk := Except.ok ()
  search := fun _ _ => Except.ok []
  generate := fun _ => Except.ok "fabricated answer from empty context"

end RagSpec

namespace RagSpec

/-! ## Claim theorems: ingestion, query and logging control flow -/

/-- C1: the /index handler derives record ids from the context and the chunk
position alone, so two separate ingestion calls sharing a context construct
the same ids and the second upsert silently replaces the record written by
the first; the claim that ids are unique across calls fails on the code.
Here a first call indexing one chunk and a second call indexing one chunk
both construct the id ctx-0, and after both upserts the store holds only the
document of the second call. -/
theorem index_ids_collide_across_calls :
    indexIds "ctx" 1 = ["ctx-0"] ∧
    indexIds "ctx" 2 = ["ctx-0", "ctx-1"] ∧
    upsertAll (upsertAll [] ((indexIds "ctx" 1).zip ["doc from first ingest"]))
        ((indexIds "ctx" 1).zip ["doc from second ingest"]) =
      [("ctx-0", "doc from second ingest")] := by
  decide

/-- C6: temp files staged for an ingestion call are not released on every
exit path.  With two staged files and a chunking (embedding) failure on the
first file, both the /index and the /upload handler finish the request with
a 500 response while neither temp file was ever unlinked: the unlink runs
only after a successful chunking of the same file, and the catch branch does
no cleanup. -/
theorem index_temp_files_leak_on_chunk_failure :
    (runIndex envChunkFail [] "ctx" (some stagedFiles)).1 = 500 ∧
    Ev.unlink "tmp-a" ∉ (runIndex envChunkFail [] "ctx" (some stagedFiles)).2.1 ∧
    Ev.unlink "tmp-b" ∉ (runIndex envChunkFail [] "ctx" (some stagedFiles)).2.1 ∧
    (runUpload envChunkFail [] "ctx" 111 (some stagedFiles)).1 = 500 ∧
    Ev.unlink "tmp-a" ∉ (runUpload envChunkFail [] "ctx" 111 (some stagedFiles)).2.1 ∧
    Ev.unlink "tmp-b" ∉ (runUpload envChunkFail [] "ctx" 111 (some stagedFiles)).2.1 := by
  decide

/-- C8: an ingestion request with a missing or empty file set is rejected
with the 400 validation response before any external effect: the event list
of the run is empty (no embedding call, no collection fetch, no store write,
no file access) and the store is returned unchanged, for both the /index and
the /upload handler. -/
theorem empty_fileset_rejected_without_side_effects :
    ∀ (env : IngestEnv) (store : List (String × String)) (context : String) (now : ℕ),
      runIndex env store context none = (400, [], store) ∧
      runIndex env store context (some []) = (400, [], store) ∧
      runUpload env store context now none = (400, [], store) ∧
      runUpload env store context now (some []) = (400, [], store) :=
  fun _ _ _ _ => ⟨rfl, rfl, rfl, rfl⟩

/-- C9: the console.log redirection of getEmbeddings is not restored on the
failure path.  When the underlying embedding call rejects, the function
propagates the error while the global logging function is still the
silencing no-op, contradicting the required guaranteed restore on every exit
path; the claim fails on the code. -/
theorem console_patch_not_restored_on_failure :
    getEmbeddingsPatched (Except.error "upstream embedding error" : Except String (List String))
        LogTarget.original =
      (Except.error "upstream embedding error", LogTarget.silenced) ∧
    LogTarget.silenced ≠ LogTarget.original := by
  exact ⟨rfl, by decide⟩

/-- C7 counterexample: the /query handler has no empty-result branch.  With a
vector search returning zero results it still builds a prompt over the empty
context and invokes the generation service, returning whatever the service
fabricates; the generation-call flag of the run is true and the answer is
not the fixed no-matching-documents answer, so the claim as stated is false
for the /query endpoint. -/
theorem query_calls_generation_on_empty_results :
    runQuery envEmptySearch "what is indexed?" 5 none =
      (200, "fabricated answer from empty context", [], true) ∧
    "fabricated answer from empty context" ≠ "No matching documents found." := by
  exact ⟨rfl, by decide⟩

/-- C7 amended: scoped to the /chat handler the claim holds.  Whenever the
query text is non-empty, the embedding and collection calls succeed and the
search returns zero results, /chat responds with the fixed
no-matching-documents answer and an empty retrieved list, and the generation
service is not called. -/
theorem chat_skips_generation_on_empty_results (env : QueryEnv) (q : String) (k : ℕ)
    (c : Option String) (hq : q.isEmpty = false) (he : env.embedQ = Except.ok ())
    (hg : env.getCollectionOk = Except.ok ())
    (hs : env.search k (whereOf c) = Except.ok []) :
    runChat env q k c = (200, "No matching documents found.", [], false) := by
  simp [runChat, hq, he, hg, hs]

/-- C7 amended witness: the /chat behavior at a concrete oracle with an
empty search result. -/
theorem chat_skips_generation_on_empty_results_witness :
    runChat envEmptySearch "hello" 5 none = (200, "No matching documents found.", [], false) :=
  chat_skips_generation_on_empty_results envEmptySearch "hello" 5 none rfl rfl rfl rfl

/-- C10: every ingestion and query handler resolves the one collection with
the fixed constant name, and context separation happens only through the
where filter: with no filter every context matches, and a truthy filter
value matches exactly the records carrying that context (an empty filter
string is falsy in the source and imposes no filter at all). -/
theorem single_collection_and_metadata_filter :
    (collectionNameIndex = "Damian_Ingested" ∧ collectionNameQuery = "Damian_Ingested" ∧
      collectionNameUpload = "Damian_Ingested" ∧ collectionNameChat = "Damian_Ingested") ∧
    (∀ ctx : String, matchesWhere (whereOf none) ctx = true) ∧
    (∀ c ctx : String, matchesWhere (whereOf (some c)) ctx = true ↔ (c = "" ∨ ctx = c)) := by
  refine ⟨⟨rfl, rfl, rfl, rfl⟩, fun ctx => rfl, fun c ctx => ?_⟩
  by_cases hc : c = ""
  · subst hc
    have h0 : whereOf (some "") = none := rfl
    rw [h0]
    simp [matchesWhere]
  · have hne : c.isEmpty = false := by
      rcases h : c.isEmpty with _ | _
      · rfl
      · exact absurd ((String.isEmpty_iff c).mp h) hc
    simp [whereOf, matchesWhere, hne, hc]

end RagSpec

namespace RagSpec

/-! ## Chunker lemmas -/

/-- Appending one more sentence to a non-empty block extends its space-join
by a space and the sentence, exactly as the loop extends currentChunk. -/
theorem joinSpace_append_singleton (curB : List (List Char)) (s : List Char) (h : curB ≠ []) :
    joinSpace (curB ++ [s]) = joinSpace curB ++ ' ' :: s := by
  cases curB with
  | nil => exact absurd rfl h
  | cons c0 rest => simp [joinSpace, List.foldl_append]

/-- The sentence components of the sentence and vector pairing are the
sentences themselves. -/
theorem attachVecs_map_fst (vecs : List (List ℝ)) :
    ∀ (i : ℕ) (l : List (List Char)), (attachVecs vecs i l).map Prod.fst = l := by
  intro i l
  induction l generalizing i with
  | nil => rfl
  | cons s rest ih => simp [attachVecs, ih]

/-- Coverage of the spec-version chunker: starting from a non-empty current
block, the emitted chunks are the space-joins of a partition of the current
block followed by all remaining sentences, into non-empty consecutive
blocks. -/
theorem specRun_coverage (τ : ℝ) :
    ∀ (pairs : List (List Char × List ℝ)) (anchor : List ℝ) (curB : List (List Char)),
      curB ≠ [] →
      ∃ blocks : List (List (List Char)),
        (∀ b ∈ blocks, b ≠ []) ∧
        blocks.flatten = curB ++ pairs.map Prod.fst ∧
        specChunkRun τ anchor (joinSpace curB) pairs = blocks.map joinSpace := by
  intro pairs
  induction pairs with
  | nil =>
    intro anchor curB h
    exact ⟨[curB], by simp [h], by simp, by simp [specChunkRun]⟩
  | cons p rest ih =>
    intro anchor curB h
    obtain ⟨s, v⟩ := p
    rcases hg : jsGe (cosineSimilarity anchor v) τ with _ | _
    · obtain ⟨blocks, hb, hflat, heq⟩ := ih v [s] (by simp)
      refine ⟨curB :: blocks, ?_, ?_, ?_⟩
      · intro b hbm
        rcases List.mem_cons.mp hbm with rfl | hbm2
        · exact h
        · exact hb b hbm2
      · simp [hflat]
      · have hjs : joinSpace [s] = s := rfl
        rw [hjs] at heq
        simp [specChunkRun, hg, heq]
    · obtain ⟨blocks, hb, hflat, heq⟩ := ih anchor (curB ++ [s]) (by simp)
      refine ⟨blocks, hb, ?_, ?_⟩
      · simp [hflat]
      · rw [joinSpace_append_singleton curB s h] at heq
        simp [specChunkRun, hg, heq]

/-- The fold of the code chunk loop followed by the final push equals the
accumulated chunks followed by the spec-version recursion, whenever the
current chunk and every remaining sentence are non-empty. -/
theorem chunkFold_eq_specRun (τ : ℝ) :
    ∀ (pairs : List (List Char × List ℝ)) (chunks : List (List Char)) (cur : List Char)
      (v : List ℝ), cur ≠ [] → (∀ p ∈ pairs, p.1 ≠ []) →
      chunkFinish (pairs.foldl (chunkStep τ) (chunks, cur, v)) =
        chunks ++ specChunkRun τ v cur pairs := by
  intro pairs
  induction pairs with
  | nil =>
    intro chunks cur v hcur _
    have : cur.isEmpty = false := by
      rcases hc : cur.isEmpty with _ | _
      · rfl
      · exact absurd (List.isEmpty_iff.mp hc) hcur
    simp [chunkFinish, specChunkRun, this]
  | cons p rest ih =>
    intro chunks cur v hcur hp
    obtain ⟨s, vv⟩ := p
    rcases hg : jsGe (cosineSimilarity v vv) τ with _ | _
    · have step : chunkStep τ (chunks, cur, v) (s, vv) = (chunks ++ [cur], s, vv) := by
        simp [chunkStep, hg]
      rw [List.foldl_cons, step,
        ih (chunks ++ [cur]) s vv (hp (s, vv) (by simp)) (fun q hq => hp q (by simp [hq]))]
      simp [specChunkRun, hg]
    · have step : chunkStep τ (chunks, cur, v) (s, vv) = (chunks, cur ++ ' ' :: s, v) := by
        simp [chunkStep, hg]
      rw [List.foldl_cons, step,
        ih chunks (cur ++ ' ' :: s) v (by simp) (fun q hq => hp q (by simp [hq]))]
      simp [specChunkRun, hg]

/-- The code chunker equals the spec-version chunker on every non-degenerate
sentence list: the anchor vector of the code loop is exactly the embedding
of the sentence that opened the current run. -/
theorem chunkSentences_eq_spec (τ : ℝ) (sents : List (List Char)) (vecs : List (List ℝ))
    (h : ∀ s ∈ sents, s ≠ []) :
    chunkSentences τ sents vecs = specChunking τ sents vecs := by
  cases sents with
  | nil => rfl
  | cons s0 rest =>
    have h0 : s0 ≠ [] := h s0 (by simp)
    have hp : ∀ p ∈ attachVecs vecs 1 rest, p.1 ≠ [] := by
      intro p hpmem
      have : p.1 ∈ (attachVecs vecs 1 rest).map Prod.fst := List.mem_map_of_mem Prod.fst hpmem
      rw [attachVecs_map_fst vecs 1 rest] at this
      exact h p.1 (by simp [this])
    simpa [chunkSentences, specChunking] using
      chunkFold_eq_specRun τ (attachVecs vecs 1 rest) [] s0 (vecs.getD 0 []) h0 hp

end RagSpec

namespace RagSpec

/-! ## Zero-magnitude similarity lemmas -/

/-- The running sum of squares of the source reduce is the sum of the mapped
squares. -/
theorem foldl_add_sq (l : List ℝ) (c : ℝ) :
    l.foldl (fun s a => s + a * a) c = c + (l.map (fun a => a * a)).sum := by
  induction l generalizing c with
  | nil => simp
  | cons x xs ih =>
    simp only [List.foldl_cons, List.map_cons, List.sum_cons, ih]
    ring

/-- The running sum of pairwise products of the source reduce is the sum of
the mapped products. -/
theorem foldl_add_mul (l : List (ℝ × ℝ)) (c : ℝ) :
    l.foldl (fun s p => s + p.1 * p.2) c = c + (l.map (fun p => p.1 * p.2)).sum := by
  induction l generalizing c with
  | nil => simp
  | cons x xs ih =>
    simp only [List.foldl_cons, List.map_cons, List.sum_cons, ih]
    ring

/-- A zero sum of squares forces every entry to be zero. -/
theorem sum_sq_zero {l : List ℝ} (h : (l.map (fun a => a * a)).sum = 0) :
    ∀ x ∈ l, x = 0 := by
  induction l with
  | nil => simp
  | cons x xs ih =>
    simp only [List.map_cons, List.sum_cons] at h
    have hs : 0 ≤ (xs.map (fun a => a * a)).sum := by
      refine List.sum_nonneg ?_
      intro y hy
      obtain ⟨a, _, rfl⟩ := List.mem_map.mp hy
      exact mul_self_nonneg a
    obtain ⟨h1, h2⟩ := (add_eq_zero_iff_of_nonneg (mul_self_nonneg x) hs).mp h
    intro y hy
    rcases List.mem_cons.mp hy with rfl | hy2
    · exact mul_self_eq_zero.mp h1
    · exact ih h2 y hy2

/-- A vector of zero magnitude has only zero entries. -/
theorem entries_zero_of_magnitude_zero {v : List ℝ} (h : magnitude v = 0) :
    ∀ x ∈ v, x = 0 := by
  have hfold : v.foldl (fun s a => s + a * a) 0 = (v.map (fun a => a * a)).sum := by
    simpa using foldl_add_sq v 0
  have hnn : 0 ≤ v.foldl (fun s a => s + a * a) 0 := by
    rw [hfold]
    refine List.sum_nonneg ?_
    intro y hy
    obtain ⟨a, _, rfl⟩ := List.mem_map.mp hy
    exact mul_self_nonneg a
  have hz : v.foldl (fun s a => s + a * a) 0 = 0 :=
    (Real.sqrt_eq_zero hnn).mp (by rw [magnitude] at h; exact h)
  rw [hfold] at hz
  exact sum_sq_zero hz

/-- The real dot product vanishes when one side has only zero entries. -/
theorem dotR_zero {a b : List ℝ} (h : (∀ x ∈ a, x = 0) ∨ ∀ x ∈ b, x = 0) :
    dotR a b = 0 := by
  have hfold := foldl_add_mul (a.zip b) 0
  rw [dotR, hfold]
  have : ∀ y ∈ (a.zip b).map (fun p => p.1 * p.2), y = 0 := by
    intro y hy
    obtain ⟨p, hp, rfl⟩ := List.mem_map.mp hy
    obtain ⟨h1, h2⟩ := List.of_mem_zip hp
    rcases h with ha | hb
    · rw [ha p.1 h1, zero_mul]
    · rw [hb p.2 h2, mul_zero]
  rw [List.sum_eq_zero this, zero_add]

/-- Cosine similarity of the source evaluates to NaN whenever one of the two
vectors has zero magnitude: the dot product is then zero (or already NaN for
mismatched lengths) while the product of magnitudes is zero, and 0/0 is NaN
in JavaScript. -/
theorem cosineSimilarity_nan_of_zero_mag {a b : List ℝ}
    (h : magnitude a = 0 ∨ magnitude b = 0) : cosineSimilarity a b = JNum.nan := by
  rw [cosineSimilarity]
  cases hj : jdot a b with
  | none => rfl
  | some d =>
    have hd : d = dotR a b := by
      rw [jdot] at hj
      split at hj
      · exact (Option.some.injEq _ _ ▸ hj).symm
      · exact absurd hj (by simp)
    have hdz : d = 0 := by
      rcases h with ha | hb
      · rw [hd]
        exact dotR_zero (Or.inl (entries_zero_of_magnitude_zero ha))
      · rw [hd]
        exact dotR_zero (Or.inr (entries_zero_of_magnitude_zero hb))
    have hm : magnitude a * magnitude b = 0 := by
      rcases h with ha | hb
      · rw [ha, zero_mul]
      · rw [hb, mul_zero]
    simp [hm, hdz]

end RagSpec

namespace RagSpec

/-! ## Claim theorems: chunker -/

/-- C2: the chunker output is a partition of the input sentences.  For every
cleaned sentence list (non-empty sentences, as the segmenter produces) and
any embedding list, there are non-empty consecutive blocks partitioning the
sentences in order such that the output chunks are exactly the space-joins
of those blocks; zero sentences yield no chunks, and a single sentence
yields the one chunk equal to that sentence. -/
theorem chunker_covers_sentences (τ : ℝ) (sents : List (List Char)) (vecs : List (List ℝ))
    (h : ∀ s ∈ sents, s ≠ []) :
    (∃ blocks : List (List (List Char)), (∀ b ∈ blocks, b ≠ []) ∧
        blocks.flatten = sents ∧ chunkSentences τ sents vecs = blocks.map joinSpace) ∧
    (sents = [] → chunkSentences τ sents vecs = []) ∧
    (∀ s, sents = [s] → chunkSentences τ sents vecs = [s]) := by
  refine ⟨?_, ?_, ?_⟩
  · cases sents with
    | nil => exact ⟨[], by simp, by simp, rfl⟩
    | cons s0 rest =>
      rw [chunkSentences_eq_spec τ _ vecs h]
      obtain ⟨blocks, hb, hflat, heq⟩ :=
        specRun_coverage τ (attachVecs vecs 1 rest) (vecs.getD 0 []) [s0] (by simp)
      refine ⟨blocks, hb, ?_, ?_⟩
      · rw [hflat, attachVecs_map_fst vecs 1 rest]
        rfl
      · have hjs : joinSpace [s0] = s0 := rfl
        rw [hjs] at heq
        exact heq
  · intro hE
    subst hE
    rfl
  · intro s hs
    subst hs
    have hsne : s.isEmpty = false := by
      rcases hc : s.isEmpty with _ | _
      · rfl
      · exact absurd (List.isEmpty_iff.mp hc) (h s (by simp))
    simp [chunkSentences, attachVecs, chunkFinish, hsne]

/-- C2 witness: the one-sentence edge case at a concrete input. -/
theorem chunker_covers_sentences_witness :
    (∀ s ∈ [['a']], s ≠ ([] : List Char)) ∧
    chunkSentences 0.75 [['a']] [[1]] = [['a']] := by
  refine ⟨by decide, ?_⟩
  exact (chunker_covers_sentences 0.75 [['a']] [[1]] (by decide)).2.2 ['a'] rfl

/-- C4: the anchor vector of the chunk loop stays at the embedding of the
sentence that opened the current run.  The code chunker coincides with the
spec-version chunker specChunking, whose recursion passes the anchor through
unchanged on every append and resets it only at a chunk boundary. -/
theorem chunker_anchor_stays_at_run_start (τ : ℝ) (sents : List (List Char))
    (vecs : List (List ℝ)) (h : ∀ s ∈ sents, s ≠ []) :
    chunkSentences τ sents vecs = specChunking τ sents vecs :=
  chunkSentences_eq_spec τ sents vecs h

/-- C4 witness: the refinement at a concrete input. -/
theorem chunker_anchor_stays_at_run_start_witness :
    (∀ s ∈ [['a']], s ≠ ([] : List Char)) ∧
    chunkSentences 0.75 [['a']] [[2]] = specChunking 0.75 [['a']] [[2]] :=
  ⟨by decide, chunker_anchor_stays_at_run_start 0.75 [['a']] [[2]] (by decide)⟩

/-- C5: a zero-magnitude vector on either side of the comparison makes the
cosine similarity NaN rather than an error, the NaN comparison with the
threshold is false, and the chunk loop therefore emits the current chunk and
starts a new chunk at the compared sentence: a forced boundary, never an
exception. -/
theorem zero_magnitude_forces_boundary (τ : ℝ) (chunks : List (List Char)) (cur s : List Char)
    (va v : List ℝ) (h : magnitude va = 0 ∨ magnitude v = 0) :
    cosineSimilarity va v = JNum.nan ∧
    chunkStep τ (chunks, cur, va) (s, v) = (chunks ++ [cur], s, v) := by
  have hnan := cosineSimilarity_nan_of_zero_mag h
  refine ⟨hnan, ?_⟩
  simp [chunkStep, hnan, jsGe]

/-- C5 witness: a concrete zero vector against a concrete unit vector. -/
theorem zero_magnitude_forces_boundary_witness :
    magnitude [(0 : ℝ)] = 0 ∧
    (cosineSimilarity [(0 : ℝ)] [(1 : ℝ)] = JNum.nan ∧
      chunkStep 0.75 ([], ['a'], [(0 : ℝ)]) (['b'], [(1 : ℝ)]) = ([['a']], ['b'], [(1 : ℝ)])) := by
  have hmag : magnitude [(0 : ℝ)] = 0 := by
    simp [magnitude]
  exact ⟨hmag, zero_magnitude_forces_boundary 0.75 [] ['a'] ['b'] [(0 : ℝ)] [(1 : ℝ)]
    (Or.inl hmag)⟩

end RagSpec

namespace RagSpec

/-! ## Trim and whitespace lemmas -/

/-- Dropping a satisfied prefix twice is the same as dropping it once. -/
theorem dropWhile_dropWhile (p : Char → Bool) (l : List Char) :
    (l.dropWhile p).dropWhile p = l.dropWhile p := by
  induction l with
  | nil => rfl
  | cons c cs ih =>
    rcases hc : p c with _ | _
    · simp [List.dropWhile_cons, hc]
    · simp [List.dropWhile_cons, hc, ih]

/-- The head surviving a dropWhile does not satisfy the predicate. -/
theorem dropWhile_head_false (p : Char → Bool) :
    ∀ (l : List Char) (c : Char) (cs : List Char), l.dropWhile p = c :: cs → p c = false := by
  intro l
  induction l with
  | nil => intro c cs h; simp at h
  | cons a as ih =>
    intro c cs h
    rcases ha : p a with _ | _
    · rw [List.dropWhile_cons, ha] at h
      simp only [Bool.false_eq_true, if_false, List.cons.injEq] at h
      rw [← h.1]
      exact ha
    · rw [List.dropWhile_cons, ha] at h
      exact ih c cs (by simpa using h)

/-- A list whose head does not satisfy the predicate is untouched by
dropWhile. -/
theorem dropWhile_eq_self_of_heads (p : Char → Bool) (l : List Char)
    (h : ∀ c cs, l = c :: cs → p c = false) : l.dropWhile p = l := by
  cases l with
  | nil => rfl
  | cons c cs =>
    rw [List.dropWhile_cons, h c cs rfl]
    simp

/-- Trimming is idempotent. -/
theorem trimChars_idem (t : List Char) : trimChars (trimChars t) = trimChars t := by
  have h1 : (t.dropWhile isWS).reverse =
      (t.dropWhile isWS).reverse.takeWhile isWS ++ (t.dropWhile isWS).reverse.dropWhile isWS :=
    (List.takeWhile_append_dropWhile isWS (t.dropWhile isWS).reverse).symm
  have h2 : t.dropWhile isWS =
      ((t.dropWhile isWS).reverse.dropWhile isWS).reverse ++
        ((t.dropWhile isWS).reverse.takeWhile isWS).reverse :=
    calc t.dropWhile isWS
        = ((t.dropWhile isWS).reverse).reverse := (List.reverse_reverse _).symm
      _ = ((t.dropWhile isWS).reverse.takeWhile isWS ++
            (t.dropWhile isWS).reverse.dropWhile isWS).reverse := by rw [← h1]
      _ = ((t.dropWhile isWS).reverse.dropWhile isWS).reverse ++
            ((t.dropWhile isWS).reverse.takeWhile isWS).reverse := by
          rw [List.reverse_append]
  have hstep1 : (((t.dropWhile isWS).reverse.dropWhile isWS).reverse).dropWhile isWS =
      ((t.dropWhile isWS).reverse.dropWhile isWS).reverse := by
    apply dropWhile_eq_self_of_heads
    intro c cs hc
    apply dropWhile_head_false isWS t c
      (cs ++ ((t.dropWhile isWS).reverse.takeWhile isWS).reverse)
    have h3 : t.dropWhile isWS =
        (c :: cs) ++ ((t.dropWhile isWS).reverse.takeWhile isWS).reverse := by
      rw [← hc]
      exact h2
    simpa using h3
  rw [trimChars, trimChars, hstep1, List.reverse_reverse, dropWhile_dropWhile]

/-- Dropping leading whitespace does not change the non-whitespace
characters. -/
theorem nonWS_dropWhile_isWS (l : List Char) : nonWS (l.dropWhile isWS) = nonWS l := by
  induction l with
  | nil => rfl
  | cons c cs ih =>
    rcases hc : isWS c with _ | _
    · simp [List.dropWhile_cons, hc, nonWS, List.filter_cons]
    · simp only [List.dropWhile_cons, hc, if_true]
      rw [ih]
      simp [nonWS, List.filter_cons, hc]

/-- The non-whitespace characters of a reversed list are the reversed
non-whitespace characters. -/
theorem nonWS_reverse (l : List Char) : nonWS l.reverse = (nonWS l).reverse := by
  simp [nonWS, List.filter_reverse]

/-- Trimming does not change the non-whitespace characters. -/
theorem nonWS_trimChars (l : List Char) : nonWS (trimChars l) = nonWS l := by
  rw [trimChars, nonWS_reverse, nonWS_dropWhile_isWS, nonWS_reverse, List.reverse_reverse,
    nonWS_dropWhile_isWS]

/-- The non-whitespace filter distributes over list append. -/
theorem nonWS_append (a b : List Char) : nonWS (a ++ b) = nonWS a ++ nonWS b := by
  simp [nonWS]

/-- The non-whitespace filter distributes over flattening. -/
theorem nonWS_flatten (L : List (List Char)) : nonWS L.flatten = (L.map nonWS).flatten := by
  induction L with
  | nil => rfl
  | cons a L ih =>
    rw [List.flatten_cons, nonWS_append, ih, List.map_cons, List.flatten_cons]

/-- Sentence terminators are not whitespace. -/
theorem isWS_false_of_isTerm {c : Char} (h : isTerm c = true) : isWS c = false := by
  rw [isTerm] at h
  have h3 : c = '.' ∨ c = '!' ∨ c = '?' := by
    simpa [or_assoc] using h
  rcases h3 with rfl | rfl | rfl <;> decide

end RagSpec

namespace RagSpec


/-! ## Segmentation scanner step lemmas -/

/-- End of input with no pending terminator span: nothing is emitted. -/
theorem segAux_end_nil (ns : List Char) : segAux ns [] [] = [] := by
  cases ns <;> rfl

/-- End of input with a pending terminator span: the pending match is
emitted. -/
theorem segAux_end_emit (ns : List Char) (t : Char) (ts : List Char) :
    segAux ns (t :: ts) [] = [ns.reverse ++ (t :: ts).reverse] := rfl

/-- A non-terminator with no pending terminator span is accumulated. -/
theorem segAux_step_accum (ns : List Char) (c : Char) (cs : List Char)
    (hc : isTerm c = false) : segAux ns [] (c :: cs) = segAux (c :: ns) [] cs := by
  cases ns <;> simp [segAux, hc]

/-- A terminator with empty state cannot start a match and is skipped. -/
theorem segAux_step_skip (c : Char) (cs : List Char) (hc : isTerm c = true) :
    segAux [] [] (c :: cs) = segAux [] [] cs := by
  simp [segAux, hc]

/-- A terminator after a pending non-terminator span opens the terminator
span. -/
theorem segAux_step_open (n : Char) (ns : List Char) (c : Char) (cs : List Char)
    (hc : isTerm c = true) : segAux (n :: ns) [] (c :: cs) = segAux (n :: ns) [c] cs := by
  simp [segAux, hc]

/-- A further terminator extends the pending terminator span. -/
theorem segAux_step_extend (ns : List Char) (t : Char) (ts : List Char) (c : Char)
    (cs : List Char) (hc : isTerm c = true) :
    segAux ns (t :: ts) (c :: cs) = segAux ns (c :: t :: ts) cs := by
  simp [segAux, hc]

/-- A non-terminator after a pending terminator span closes and emits the
match and restarts the scanner at the character. -/
theorem segAux_step_emit (ns : List Char) (t : Char) (ts : List Char) (c : Char)
    (cs : List Char) (hc : isTerm c = false) :
    segAux ns (t :: ts) (c :: cs) = (ns.reverse ++ (t :: ts).reverse) :: segAux [c] [] cs := by
  simp [segAux, hc]

/-- On terminator-free input the scanner in accumulate mode emits nothing:
the pending span never meets a terminator and is dropped at the end. -/
theorem segAux_all_nonterm :
    ∀ (cs ns : List Char), (∀ c ∈ cs, isTerm c = false) → segAux ns [] cs = [] := by
  intro cs
  induction cs with
  | nil => intro ns _; exact segAux_end_nil ns
  | cons c cs ih =>
    intro ns h
    rw [segAux_step_accum ns c cs (h c (by simp))]
    exact ih (c :: ns) (fun d hd => h d (by simp [hd]))

/-- Leading terminators are skipped by the scanner with empty state. -/
theorem segAux_skip_pre :
    ∀ (pre cs : List Char), (∀ c ∈ pre, isTerm c = true) →
      segAux [] [] (pre ++ cs) = segAux [] [] cs := by
  intro pre
  induction pre with
  | nil => intro cs _; rfl
  | cons c pre ih =>
    intro cs h
    rw [List.cons_append, segAux_step_skip c (pre ++ cs) (h c (by simp))]
    exact ih cs (fun d hd => h d (by simp [hd]))

/-- When the pending terminator span holds only terminators, every match the
scanner emits contains a terminator character. -/
theorem segAux_mem_term :
    ∀ (cs ns ts : List Char), (∀ c ∈ ts, isTerm c = true) →
      ∀ m ∈ segAux ns ts cs, ∃ c ∈ m, isTerm c = true := by
  intro cs
  induction cs with
  | nil =>
    intro ns ts hts m hm
    cases ts with
    | nil => rw [segAux_end_nil] at hm; simp at hm
    | cons t ts' =>
      rw [segAux_end_emit, List.mem_singleton] at hm
      subst hm
      exact ⟨t, by simp, hts t (by simp)⟩
  | cons c cs ih =>
    intro ns ts hts m hm
    cases ts with
    | nil =>
      rcases hc : isTerm c with _ | _
      · rw [segAux_step_accum ns c cs hc] at hm
        exact ih (c :: ns) [] (by simp) m hm
      · cases ns with
        | nil =>
          rw [segAux_step_skip c cs hc] at hm
          exact ih [] [] (by simp) m hm
        | cons n ns' =>
          rw [segAux_step_open n ns' c cs hc] at hm
          refine ih (n :: ns') [c] ?_ m hm
          intro d hd
          rw [List.mem_singleton] at hd
          subst hd
          exact hc
    | cons t ts' =>
      rcases hc : isTerm c with _ | _
      · rw [segAux_step_emit ns t ts' c cs hc, List.mem_cons] at hm
        rcases hm with rfl | hm2
        · exact ⟨t, by simp, hts t (by simp)⟩
        · exact ih [c] [] (by simp) m hm2
      · rw [segAux_step_extend ns t ts' c cs hc] at hm
        refine ih ns (c :: t :: ts') ?_ m hm
        intro d hd
        rcases List.mem_cons.mp hd with rfl | hd2
        · exact hc
        · exact hts d hd2

end RagSpec

namespace RagSpec

/-- Decomposition invariant of the scanner, for both scanner modes.  With a
pending terminator span the scanner output flattens to the pending spans
followed by a core prefix of the remaining input, the rest being a
terminator-free dropped suffix.  With only a pending non-terminator span the
flattened output either completes the pending span with such a core, or is
empty with an empty core when no terminator follows. -/
theorem segAux_decomp : ∀ cs : List Char,
    (∀ ns ts : List Char, ts ≠ [] →
      ∃ core suf, cs = core ++ suf ∧ (∀ c ∈ suf, isTerm c = false) ∧
        (segAux ns ts cs).flatten = ns.reverse ++ ts.reverse ++ core) ∧
    (∀ ns : List Char, ns ≠ [] →
      ∃ core suf, cs = core ++ suf ∧ (∀ c ∈ suf, isTerm c = false) ∧
        ((segAux ns [] cs).flatten = ns.reverse ++ core ∨
          ((segAux ns [] cs).flatten = [] ∧ core = []))) := by
  intro cs
  induction cs with
  | nil =>
    refine ⟨?_, ?_⟩
    · intro ns ts hts
      cases ts with
      | nil => exact absurd rfl hts
      | cons t ts' =>
        refine ⟨[], [], by simp, by simp, ?_⟩
        rw [segAux_end_emit]
        simp
    · intro ns _
      refine ⟨[], [], by simp, by simp, Or.inr ⟨?_, rfl⟩⟩
      rw [segAux_end_nil]
      rfl
  | cons c cs ih =>
    obtain ⟨ihG, ihH⟩ := ih
    refine ⟨?_, ?_⟩
    · intro ns ts hts
      cases ts with
      | nil => exact absurd rfl hts
      | cons t ts' =>
        rcases hc : isTerm c with _ | _
        · obtain ⟨core', suf', hcs, hsuf, hjoin⟩ := ihH [c] (by simp)
          rcases hjoin with hL | ⟨hE, hcoreE⟩
          · refine ⟨c :: core', suf', by simp [hcs], hsuf, ?_⟩
            rw [segAux_step_emit ns t ts' c cs hc, List.flatten_cons, hL]
            simp
          · refine ⟨[], c :: cs, by simp, ?_, ?_⟩
            · intro d hd
              rcases List.mem_cons.mp hd with rfl | hd2
              · exact hc
              · subst hcoreE
                rw [List.nil_append] at hcs
                exact hsuf d (hcs ▸ hd2)
            · rw [segAux_step_emit ns t ts' c cs hc, List.flatten_cons, hE]
        · obtain ⟨core', suf', hcs, hsuf, hjoin⟩ := ihG ns (c :: t :: ts') (by simp)
          refine ⟨c :: core', suf', by simp [hcs], hsuf, ?_⟩
          rw [segAux_step_extend ns t ts' c cs hc, hjoin]
          simp
    · intro ns hns
      rcases hc : isTerm c with _ | _
      · obtain ⟨core', suf', hcs, hsuf, hjoin⟩ := ihH (c :: ns) (by simp)
        rcases hjoin with hL | ⟨hE, hcoreE⟩
        · refine ⟨c :: core', suf', by simp [hcs], hsuf, Or.inl ?_⟩
          rw [segAux_step_accum ns c cs hc, hL]
          simp
        · refine ⟨[], c :: cs, by simp, ?_, Or.inr ⟨?_, rfl⟩⟩
          · intro d hd
            rcases List.mem_cons.mp hd with rfl | hd2
            · exact hc
            · subst hcoreE
              rw [List.nil_append] at hcs
              exact hsuf d (hcs ▸ hd2)
          · rw [segAux_step_accum ns c cs hc]
            exact hE
      · obtain ⟨n, ns', rfl⟩ : ∃ n ns', ns = n :: ns' := by
          cases ns with
          | nil => exact absurd rfl hns
          | cons a b => exact ⟨a, b, rfl⟩
        obtain ⟨core', suf', hcs, hsuf, hjoin⟩ := ihG (n :: ns') [c] (by simp)
        refine ⟨c :: core', suf', by simp [hcs], hsuf, Or.inl ?_⟩
        rw [segAux_step_open n ns' c cs hc, hjoin]
        simp

/-- Every input splits as a leading terminator run, the exactly covered core,
and a terminator-free dropped suffix: the flattened regex matches are the
core. -/
theorem segMatches_decomp (cs : List Char) :
    ∃ pre core suf, cs = pre ++ core ++ suf ∧ (∀ c ∈ pre, isTerm c = true) ∧
      (∀ c ∈ suf, isTerm c = false) ∧ (segMatches cs).flatten = core := by
  have hpre : ∀ c ∈ cs.takeWhile isTerm, isTerm c = true := fun c hc =>
    List.mem_takeWhile_imp hc
  have hsplit : cs = cs.takeWhile isTerm ++ cs.dropWhile isTerm :=
    (List.takeWhile_append_dropWhile isTerm cs).symm
  have hskip : segMatches cs = segAux [] [] (cs.dropWhile isTerm) := by
    rw [segMatches]
    conv_lhs => rw [hsplit]
    exact segAux_skip_pre (cs.takeWhile isTerm) (cs.dropWhile isTerm) hpre
  cases hd : cs.dropWhile isTerm with
  | nil =>
    refine ⟨cs.takeWhile isTerm, [], [], ?_, hpre, by simp, ?_⟩
    · conv_lhs => rw [hsplit]
      rw [hd]
      simp
    · rw [hskip, hd, segAux_end_nil]
      rfl
  | cons d ds =>
    have hdnt : isTerm d = false := dropWhile_head_false isTerm cs d ds hd
    obtain ⟨core', suf', hds, hsuf, hjoin⟩ := (segAux_decomp ds).2 [d] (by simp)
    have hstep : segMatches cs = segAux [d] [] ds := by
      rw [hskip, hd, segAux_step_accum [] d ds hdnt]
    rcases hjoin with hL | ⟨hE, hcoreE⟩
    · refine ⟨cs.takeWhile isTerm, d :: core', suf', ?_, hpre, hsuf, ?_⟩
      · conv_lhs => rw [hsplit]
        rw [hd, hds]
        simp
      · rw [hstep, hL]
        simp
    · refine ⟨cs.takeWhile isTerm, [], d :: ds, ?_, hpre, ?_, ?_⟩
      · conv_lhs => rw [hsplit]
        rw [hd]
        simp
      · intro e he
        rcases List.mem_cons.mp he with rfl | he2
        · exact hdnt
        · subst hcoreE
          rw [List.nil_append] at hds
          exact hsuf e (hds ▸ he2)
      · rw [hstep, hE]

end RagSpec

namespace RagSpec

/-- Non-empty lists have a false isEmpty flag. -/
theorem isEmpty_false_of_ne_nil {α : Type} {l : List α} (h : l ≠ []) : l.isEmpty = false := by
  rcases hl : l.isEmpty with _ | _
  · rfl
  · exact absurd (List.isEmpty_iff.mp hl) h

/-! ## Claim theorems: sentence segmentation -/

/-- C3 counterexample: segmentation loses non-whitespace characters.  On the
input Hi. Bye the regex matches only Hi. and the trailing unterminated word
Bye is dropped, so the rejoined cleaned sentences do not contain every
non-whitespace character of the input. -/
theorem segmentation_loses_trailing_text :
    nonWS (cleanSentencesOf ("Hi. Bye".toList)).flatten ≠ nonWS ("Hi. Bye".toList) := by
  decide

/-- C3 amended: the segmenter always outputs trimmed non-empty sentence
strings; an input with no terminator at all is kept whole as one sentence
(trimmed, dropped only if blank); and in general the input splits into a
leading run of terminators, a core, and a terminator-free trailing suffix
such that the rejoined output preserves exactly the non-whitespace
characters of the core, the leading terminator run and the text after the
last terminator being dropped. -/
theorem segmentation_preserves_matched_region (cs : List Char) :
    (∀ s ∈ cleanSentencesOf cs, s ≠ [] ∧ trimChars s = s) ∧
    ((∀ c ∈ cs, isTerm c = false) →
      cleanSentencesOf cs = if trimChars cs = [] then [] else [trimChars cs]) ∧
    (∃ pre core suf, cs = pre ++ core ++ suf ∧ (∀ c ∈ pre, isTerm c = true) ∧
      (∀ c ∈ suf, isTerm c = false) ∧
      nonWS (cleanSentencesOf cs).flatten = nonWS core) := by
  refine ⟨?_, ?_, ?_⟩
  · intro s hs
    rw [cleanSentencesOf] at hs
    obtain ⟨hmem, hfilt⟩ := List.mem_filter.mp hs
    obtain ⟨t, _, rfl⟩ := List.mem_map.mp hmem
    constructor
    · intro h0
      rw [h0] at hfilt
      simp at hfilt
    · exact trimChars_idem t
  · intro hnt
    have hm : segMatches cs = [] := segAux_all_nonterm cs [] hnt
    rw [cleanSentencesOf, sentencesOf, hm]
    by_cases ht : trimChars cs = []
    · simp [ht]
    · simp [ht, isEmpty_false_of_ne_nil ht]
  · by_cases hm : segMatches cs = []
    · refine ⟨[], cs, [], by simp, by simp, by simp, ?_⟩
      by_cases ht : trimChars cs = []
      · have hclean : cleanSentencesOf cs = [] := by
          rw [cleanSentencesOf, sentencesOf, hm]
          simp [ht]
        have h2 : nonWS cs = [] := by
          rw [← nonWS_trimChars cs, ht]
          rfl
        rw [hclean, h2]
        rfl
      · have hclean : cleanSentencesOf cs = [trimChars cs] := by
          rw [cleanSentencesOf, sentencesOf, hm]
          simp [isEmpty_false_of_ne_nil ht]
        rw [hclean]
        simp [nonWS_trimChars cs]
    · obtain ⟨pre, core, suf, hcs, hpre, hsuf, hflat⟩ := segMatches_decomp cs
      refine ⟨pre, core, suf, hcs, hpre, hsuf, ?_⟩
      have hsent : sentencesOf cs = segMatches cs := by
        rw [sentencesOf, @isEmpty_false_of_ne_nil (List Char) (segMatches cs) hm]
        simp
      rw [cleanSentencesOf, hsent]
      have hkeep : ((segMatches cs).map trimChars).filter (fun s => !s.isEmpty) =
          (segMatches cs).map trimChars := by
        refine List.filter_eq_self.mpr ?_
        intro s hs
        obtain ⟨m, hmm, rfl⟩ := List.mem_map.mp hs
        obtain ⟨tc, htc_mem, htc⟩ := segAux_mem_term cs [] [] (by simp) m hmm
        have hws : isWS tc = false := isWS_false_of_isTerm htc
        have htm : trimChars m ≠ [] := by
          intro h0
          have h1 : nonWS (trimChars m) = nonWS m := nonWS_trimChars m
          rw [h0] at h1
          have h2 : tc ∈ nonWS m := by
            rw [nonWS, List.mem_filter]
            exact ⟨htc_mem, by simp [hws]⟩
          rw [← h1] at h2
          simp [nonWS] at h2
        simp [isEmpty_false_of_ne_nil htm]
      rw [hkeep, nonWS_flatten, List.map_map]
      have hmapeq : (segMatches cs).map (nonWS ∘ trimChars) = (segMatches cs).map nonWS :=
        List.map_congr_left (fun m _ => by
          simp only [Function.comp_apply]
          exact nonWS_trimChars m)
      rw [hmapeq, ← nonWS_flatten, hflat]

/-- C3 amended witness: a terminator-free input is kept whole as one trimmed
sentence. -/
theorem segmentation_preserves_matched_region_witness :
    (∀ c ∈ ("no mark".toList), isTerm c = false) ∧
    cleanSentencesOf ("no mark".toList) =
      (if trimChars ("no mark".toList) = [] then [] else [trimChars ("no mark".toList)]) :=
  ⟨by decide, (segmentation_preserves_matched_region ("no mark".toList)).2.1 (by decide)⟩

end RagSpec
